import Mathlib

/-!
Verification of the Conway's Game of Life repository (sparse, unbounded-grid
simulation with string-keyed and bit-packed cell encodings, plus chunked
persistence).  Shallow embedding: JS strings are modelled as their character
lists, JS numbers holding integers as `ℤ`, JS `Set`/`Map` objects as `Finset`s
and count functions, and JS 32-bit bitwise operators as explicit
wrap-to-`Int32` arithmetic.
-/

/-! ### JavaScript 32-bit integer primitives

JS bitwise operators coerce their operands with ToInt32/ToUint32 (wrap modulo
2^32) and return a signed 32-bit result.  These model `<<`, `>>`, `&`, `|`,
`%` and `Math.floor` division on integral JS numbers. -/

/-- ECMAScript ToInt32: wrap into the signed 32-bit window. -/
def toInt32 (z : ℤ) : ℤ := (z + 2147483648) % 4294967296 - 2147483648

/-- ECMAScript ToUint32, as a natural number (the raw 32-bit pattern). -/
def toUint32 (z : ℤ) : ℕ := (z % 4294967296).toNat

/-- JS bitwise AND `a & b`. -/
def jsAnd (a b : ℤ) : ℤ := toInt32 (Int.ofNat (toUint32 a &&& toUint32 b))

/-- JS bitwise OR `a | b`. -/
def jsOr (a b : ℤ) : ℤ := toInt32 (Int.ofNat (toUint32 a ||| toUint32 b))

/-- JS left shift `a << n` (shift count taken mod 32, result wraps to Int32). -/
def jsShl (a : ℤ) (n : ℕ) : ℤ := toInt32 (toInt32 a * 2 ^ (n % 32))

/-- JS sign-propagating right shift `a >> n` (arithmetic shift = floor division). -/
def jsShr (a : ℤ) (n : ℕ) : ℤ := Int.fdiv (toInt32 a) (2 ^ (n % 32))

/-- JS remainder `a % b` (truncated division, sign follows the dividend). -/
def jsRem (a b : ℤ) : ℤ := Int.tmod a b

/-- JS `Math.floor(a / b)` on integers. -/
def jsFloorDiv (a b : ℤ) : ℤ := Int.fdiv a b

/-! ### The sparse step engine

From src/convex-solid/lib/index.ts lines 7-45 (string-keyed variant; the same
functions appear verbatim in src/unnamed/part_002 lines 27-65).  The string
codec `cellKey`/`parseCell` is an injective map from coordinate pairs to keys
(proved below), so the engine is embedded at the coordinate level: a `World`
(JS `Set` of keys) is a `Finset (ℤ × ℤ)` and the neighbour-count `Map` is its
count function `neighborCounts` together with its key set `countedKeys`
(a key is in the Map iff its count is at least 1). -/

/-- Moore neighbourhood of a cell, in source order (lib/index.ts lines 7-18). -/
def neighbors (c : ℤ × ℤ) : List (ℤ × ℤ) :=
  [(c.1 - 1, c.2 - 1), (c.1, c.2 - 1), (c.1 + 1, c.2 - 1),
   (c.1 - 1, c.2), (c.1 + 1, c.2),
   (c.1 - 1, c.2 + 1), (c.1, c.2 + 1), (c.1 + 1, c.2 + 1)]

/-- Value of the neighbour-count Map at key `k`: each live cell increments the
counter of each of its eight neighbours (lib/index.ts lines 20-32). -/
def neighborCounts (w : Finset (ℤ × ℤ)) (k : ℤ × ℤ) : ℕ :=
  ∑ c ∈ w, (neighbors c).count k

/-- Key set of the neighbour-count Map: exactly the keys that received at
least one increment. -/
def countedKeys (w : Finset (ℤ × ℤ)) : Finset (ℤ × ℤ) :=
  w.biUnion fun c => (neighbors c).toFinset

/-- One generation step (lib/index.ts lines 34-45): iterate over the entries
of the count Map and keep a key iff its count is 3, or its count is 2 and the
key is alive in the current world. -/
def nextGeneration (w : Finset (ℤ × ℤ)) : Finset (ℤ × ℤ) :=
  (countedKeys w).filter fun k =>
    neighborCounts w k = 3 ∨ (neighborCounts w k = 2 ∧ k ∈ w)

/-- Pure cell toggle (src/unnamed/part_002 lines 212-223: copy the set, then
delete the key if present, else add it). -/
def toggleCell (w : Finset (ℤ × ℤ)) (x y : ℤ) : Finset (ℤ × ℤ) :=
  if (x, y) ∈ w then w.erase (x, y) else insert (x, y) w

/-! ### The bit-packed key variant

From src/convex-solid/lib/index.ts lines 626-677 (the solid-js variant):
keys are single JS numbers `(x << 16) | (y & 0xffff)`, decoded by
`unpackKey = [key >> 16, key & 0xffff]` (note: the low field is NOT
sign-extended), and the same step algorithm runs over packed keys. -/

namespace Packed

/-- Packed key `(x << 16) | (y & 0xffff)` (lib/index.ts line 626). -/
def cellKey (x y : ℤ) : ℤ := jsOr (jsShl x 16) (jsAnd y 65535)

/-- Packed decode `[key >> 16, key & 0xffff]` (lib/index.ts line 629). -/
def unpackKey (k : ℤ) : ℤ × ℤ := (jsShr k 16, jsAnd k 65535)

/-- Body of the packed neighbour-count loop (lib/index.ts lines 652-664):
unpack a live key, list its Moore neighbours, re-pack each. -/
def packedNeighbors (c : ℤ) : List ℤ :=
  (neighbors (unpackKey c)).map fun p => cellKey p.1 p.2

/-- Value of the packed neighbour-count Map at key `k`. -/
def neighborCounts (w : Finset ℤ) (k : ℤ) : ℕ :=
  ∑ c ∈ w, (packedNeighbors c).count k

/-- Key set of the packed neighbour-count Map. -/
def countedKeys (w : Finset ℤ) : Finset ℤ :=
  w.biUnion fun c => (packedNeighbors c).toFinset

/-- Packed-key generation step (lib/index.ts lines 666-677), same rule as the
string-keyed `nextGeneration`. -/
def nextGeneration (w : Finset ℤ) : Finset ℤ :=
  (countedKeys w).filter fun k =>
    neighborCounts w k = 3 ∨ (neighborCounts w k = 2 ∧ k ∈ w)

end Packed

/-! ### Chunked persistence

From src/convex-solid/convex/gameOfLife.ts.  `stepSimulation` (lines 140-151)
unpacks each stored chunk into world cells, and (lines 186-200) rebuilds the
chunk set from a world: each live cell goes to chunk
`(Math.floor(x / 64), Math.floor(y / 64))` with non-negative local residues
`((x % 64) + 64) % 64` packed as `((localX & 0xffff) << 16) | (localY & 0xffff)`.
The chunk size 64 is a literal in the source; per the spec's parametrised
chunk-codec interface it is generalised here to a parameter `C` (the source
behaviour is the instance `C = 64`).  A chunk set is a `Finset` of
`(chunk coordinate, set of packed local codes)` records. -/

namespace Chunks

/-- Owning chunk of a cell: `Math.floor(x / C)` per axis (lines 188-189). -/
def cellChunk (C : ℤ) (p : ℤ × ℤ) : ℤ × ℤ := (jsFloorDiv p.1 C, jsFloorDiv p.2 C)

/-- Non-negative local residue `((x % C) + C) % C` with JS remainder
(lines 190-191). -/
def localCoord (C x : ℤ) : ℤ := jsRem (jsRem x C + C) C

/-- Local-coordinate packing `((localX & 0xffff) << 16) | (localY & 0xffff)`
(line 198). -/
def packLocal (lx ly : ℤ) : ℤ := jsOr (jsShl (jsAnd lx 65535) 16) (jsAnd ly 65535)

/-- Local-coordinate unpacking with sign extension (lines 142-145):
extract the two 16-bit fields and subtract 0x10000 from any field ≥ 0x8000. -/
def unpackLocal (p : ℤ) : ℤ × ℤ :=
  (if 32768 ≤ jsAnd (jsShr p 16) 65535 then jsAnd (jsShr p 16) 65535 - 65536
    else jsAnd (jsShr p 16) 65535,
   if 32768 ≤ jsAnd p 65535 then jsAnd p 65535 - 65536 else jsAnd p 65535)

/-- Packed local code of a world cell. -/
def packCell (C : ℤ) (p : ℤ × ℤ) : ℤ :=
  packLocal (localCoord C p.1) (localCoord C p.2)

/-- Cell list stored for chunk `cc` (as a set of packed codes). -/
def chunkCells (w : Finset (ℤ × ℤ)) (C : ℤ) (cc : ℤ × ℤ) : Finset ℤ :=
  (w.filter fun p => cellChunk C p = cc).image (packCell C)

/-- Chunk decomposition of a world (lines 186-200): one record per chunk that
owns at least one live cell. -/
def toChunks (w : Finset (ℤ × ℤ)) (C : ℤ) : Finset ((ℤ × ℤ) × Finset ℤ) :=
  (w.image (cellChunk C)).image fun cc => (cc, chunkCells w C cc)

/-- World reconstruction from a chunk set (lines 140-151):
`worldX = chunkX * C + localX`, `worldY = chunkY * C + localY`. -/
def fromChunks (chunks : Finset ((ℤ × ℤ) × Finset ℤ)) (C : ℤ) : Finset (ℤ × ℤ) :=
  chunks.sup fun e => e.2.image fun p =>
    (e.1.1 * C + (unpackLocal p).1, e.1.2 * C + (unpackLocal p).2)

/-- Per-chunk persistence update (placeCells, gameOfLife.ts lines 78-94):
an empty cell list deletes any stored chunk, a non-empty one is patched in or
inserted.  `existing` is the stored cell list of the chunk before the update
(none = no stored chunk); the result is its stored state afterwards. -/
def applyChunkUpdate (_existing : Option (List ℤ)) (cells : List ℤ) :
    Option (List ℤ) :=
  if cells = [] then none else some cells

end Chunks

/-! ### The string coordinate codec

From src/convex-solid/lib/index.ts lines 4-5:
`cellKey = (x, y) => ` the template literal x-comma-y, and
`parseCell = (key) => key.split(",").map(Number)` (`parseKey` in
src/unnamed/part_000 lines 9-12 is the same split-and-Number decode).
JS strings are modelled as `List Char`.  `jsNumber` is a partial model of
JS `Number(s)`: it covers the empty string (which JS coerces to 0) and
optionally '-'-signed decimal integer literals, the only shapes producible
by `cellKey`; all other strings fall outside the modelled domain and the
theorems below never evaluate `jsNumber` there (JS `Number` never throws). -/

namespace StringKey

/-- Decimal digit character `d ↦ '0' + d`. -/
def digitChar (d : ℕ) : Char := Char.ofNat (48 + d)

/-- Decimal representation of a natural number (JS number-to-string for
non-negative integers): most-significant digit first. -/
def natChars (n : ℕ) : List Char :=
  if n = 0 then [Char.ofNat 48] else (Nat.digits 10 n).reverse.map digitChar

/-- JS number-to-string for an integral number: a '-' sign for negatives. -/
def intChars (x : ℤ) : List Char :=
  if x < 0 then Char.ofNat 45 :: natChars x.natAbs else natChars x.toNat

/-- The string key (model of the template literal in lib/index.ts line 4). -/
def cellKey (x y : ℤ) : List Char := intChars x ++ Char.ofNat 44 :: intChars y

/-- JS `key.split(",")` for the single-character separator. -/
def splitOnComma : List Char → List (List Char)
  | [] => [[]]
  | c :: rest =>
    if c = Char.ofNat 44 then [] :: splitOnComma rest
    else
      match splitOnComma rest with
      | [] => [[c]]
      | p :: ps => (c :: p) :: ps

/-- Accumulator pass of decimal parsing (most-significant digit first). -/
def parseNatAux : ℕ → List Char → Option ℕ
  | acc, [] => some acc
  | acc, c :: cs =>
    if c.isDigit then parseNatAux (10 * acc + (c.toNat - 48)) cs else none

/-- Partial model of JS `Number(s)`, faithful only on the two shapes the
codec proofs use: the empty string (which JS coerces to 0) and
'-'-optionally-signed decimal integer literals (the exact outputs of
`cellKey`).  Every other string is mapped to `none` here even though real JS
`Number` also accepts '+'-signs, decimal points, exponents, surrounding
whitespace, hex/octal/binary prefixes and Infinity; no theorem below relies
on this function outside its faithful domain.  `Number` never throws. -/
def jsNumber (l : List Char) : Option ℤ :=
  match l with
  | [] => some 0
  | c :: cs =>
    if c = Char.ofNat 45 then
      if cs = [] then none else (parseNatAux 0 cs).map fun n => -(n : ℤ)
    else (parseNatAux 0 (c :: cs)).map fun n => (n : ℤ)

/-- The string decode `key.split(",").map(Number)` (lib/index.ts line 5).
The JS code casts the resulting array to a pair with `as Cell`; the model
keeps the raw list, with `none` standing for NaN components. -/
def parseCell (key : List Char) : List (Option ℤ) :=
  (splitOnComma key).map jsNumber

end StringKey

/-! ### The bounded-grid variant

From src/bun-typescript/src/game-of-life.ts.  `Cell` objects (class in
cell.ts, not needed for the claims below) are reduced to their coordinate and
alive fields; `Math.random()` is modelled by an oracle `rand` so that
`fromRandomGrid` stays a function. -/

namespace Bun

structure Cell where
  x : ℤ
  y : ℤ
  alive : Bool
deriving DecidableEq

structure GameOfLife where
  width : ℤ
  height : ℤ
  cells : ℤ × ℤ → Option Cell

/-- Constructor (game-of-life.ts lines 8-14): throws when
`width <= 0 || height <= 0`, else creates an empty cell map. -/
def mkGameOfLife (width height : ℤ) : Except String GameOfLife :=
  if width ≤ 0 ∨ height ≤ 0 then Except.error "Width and height must be positive"
  else Except.ok { width := width, height := height, cells := fun _ => none }

/-- Static factory `fromRandomGrid` (lines 16-54): validates the density,
then calls the constructor, then fills every in-range position with a cell
that is alive iff `rand x y < density` models `Math.random() < density`. -/
def fromRandomGrid (width height : ℤ) (density : ℚ) (rand : ℤ → ℤ → ℚ) :
    Except String GameOfLife :=
  if density < 0 ∨ 1 < density then Except.error "Density must be between 0 and 1"
  else
    match mkGameOfLife width height with
    | Except.error e => Except.error e
    | Except.ok g =>
        Except.ok { g with
          cells := fun p =>
            if 0 ≤ p.1 ∧ p.1 < width ∧ 0 ≤ p.2 ∧ p.2 < height
            then some ⟨p.1, p.2, decide (rand p.1 p.2 < density)⟩ else none }

/-- Bounds-checked lookup (lines 73-78): `undefined` (none) outside
`[0, width) × [0, height)`. -/
def getCell (g : GameOfLife) (x y : ℤ) : Option Cell :=
  if x < 0 ∨ g.width ≤ x ∨ y < 0 ∨ g.height ≤ y then none
  else g.cells (x, y)

end Bun

/-! ### Helper lemmas: the step engine -/

lemma mem_neighbors {k c : ℤ × ℤ} :
    k ∈ neighbors c ↔ k ≠ c ∧ (k.1 - c.1).natAbs ≤ 1 ∧ (k.2 - c.2).natAbs ≤ 1 := by
  simp [neighbors, Prod.ext_iff]
  constructor
  · intro h
    rcases h with h | h | h | h | h | h | h | h <;> omega
  · intro h
    omega

lemma nodup_neighbors (c : ℤ × ℤ) : (neighbors c).Nodup := by
  simp [neighbors, Prod.ext_iff]
  omega

lemma count_le_one_of_nodup {α : Type} [BEq α] [LawfulBEq α] {l : List α}
    (h : l.Nodup) (k : α) : l.count k ≤ 1 := by
  induction l with
  | nil => simp
  | cons a l ih =>
    rcases List.nodup_cons.mp h with ⟨ha, hl⟩
    by_cases hk : k = a
    · subst hk
      simp [List.count_cons, List.count_eq_zero_of_not_mem ha]
    · have := ih hl
      simp [List.count_cons, hk]
      omega

lemma neighbors_count_le_one (c k : ℤ × ℤ) : (neighbors c).count k ≤ 1 :=
  count_le_one_of_nodup (nodup_neighbors c) k

lemma neighbors_count_pos {c k : ℤ × ℤ} : 0 < (neighbors c).count k ↔ k ∈ neighbors c :=
  List.count_pos_iff

lemma neighborCounts_pos {w : Finset (ℤ × ℤ)} {k : ℤ × ℤ} :
    0 < neighborCounts w k ↔ ∃ c ∈ w, k ∈ neighbors c := by
  rw [neighborCounts]
  constructor
  · intro h
    obtain ⟨c, hc, hne⟩ :=
      Finset.exists_ne_zero_of_sum_ne_zero (Nat.pos_iff_ne_zero.mp h)
    exact ⟨c, hc, neighbors_count_pos.mp (Nat.pos_of_ne_zero hne)⟩
  · rintro ⟨c, hc, hk⟩
    calc (0 : ℕ) < (neighbors c).count k := neighbors_count_pos.mpr hk
      _ ≤ ∑ c ∈ w, (neighbors c).count k :=
          Finset.single_le_sum (f := fun c => (neighbors c).count k)
            (fun i _ => Nat.zero_le _) hc

lemma mem_countedKeys {w : Finset (ℤ × ℤ)} {k : ℤ × ℤ} :
    k ∈ countedKeys w ↔ 0 < neighborCounts w k := by
  rw [countedKeys, Finset.mem_biUnion, neighborCounts_pos]
  simp only [List.mem_toFinset]

lemma mem_nextGeneration {w : Finset (ℤ × ℤ)} {k : ℤ × ℤ} :
    k ∈ nextGeneration w ↔
      neighborCounts w k = 3 ∨ (neighborCounts w k = 2 ∧ k ∈ w) := by
  rw [nextGeneration, Finset.mem_filter]
  constructor
  · exact fun h => h.2
  · intro h
    refine ⟨mem_countedKeys.mpr ?_, h⟩
    rcases h with h | h
    · omega
    · omega

lemma neighborCounts_le_eight (w : Finset (ℤ × ℤ)) (k : ℤ × ℤ) :
    neighborCounts w k ≤ 8 := by
  have hsub : w.filter (fun c => (neighbors c).count k ≠ 0) ⊆ (neighbors k).toFinset := by
    intro c hc
    rw [Finset.mem_filter] at hc
    rw [List.mem_toFinset, mem_neighbors]
    have := neighbors_count_pos.mp (Nat.pos_of_ne_zero hc.2)
    rw [mem_neighbors] at this
    constructor
    · exact fun h => this.1 (by rw [h])
    · omega
  calc neighborCounts w k
      = ∑ c ∈ w.filter (fun c => (neighbors c).count k ≠ 0), (neighbors c).count k := by
        rw [neighborCounts]
        exact (Finset.sum_filter_ne_zero w).symm
    _ ≤ ∑ _c ∈ w.filter (fun c => (neighbors c).count k ≠ 0), 1 :=
        Finset.sum_le_sum fun c _ => neighbors_count_le_one c k
    _ = (w.filter (fun c => (neighbors c).count k ≠ 0)).card := by simp
    _ ≤ (neighbors k).toFinset.card := Finset.card_le_card hsub
    _ ≤ (neighbors k).length := (neighbors k).toFinset_card_le
    _ = 8 := rfl

/-! ### Claim theorems: the step rule -/

/-- C1: a key is in nextGeneration(world) iff its neighbour-count entry is 3,
or is 2 with the key in the input world; keys with no entry in the count map
(count zero, hence absent from the Map) are absent from the output. -/
theorem nextGeneration_rule (w : Finset (ℤ × ℤ)) (k : ℤ × ℤ) :
    (k ∈ nextGeneration w ↔
        neighborCounts w k = 3 ∨ (neighborCounts w k = 2 ∧ k ∈ w))
    ∧ (neighborCounts w k = 0 → k ∉ nextGeneration w) := by
  refine ⟨mem_nextGeneration, fun h0 hk => ?_⟩
  rcases mem_nextGeneration.mp hk with h | h
  · omega
  · omega

/-- C1 witness: the rule evaluated on the blinker world at a born cell. -/
theorem nextGeneration_rule_witness :
    ((1, 1) ∈ nextGeneration {((0 : ℤ), (0 : ℤ)), (1, 0), (2, 0)} ↔
        neighborCounts {((0 : ℤ), (0 : ℤ)), (1, 0), (2, 0)} (1, 1) = 3 ∨
          (neighborCounts {((0 : ℤ), (0 : ℤ)), (1, 0), (2, 0)} (1, 1) = 2 ∧
            (1, 1) ∈ ({((0 : ℤ), (0 : ℤ)), (1, 0), (2, 0)} : Finset (ℤ × ℤ)))) :=
  (nextGeneration_rule {((0 : ℤ), (0 : ℤ)), (1, 0), (2, 0)} (1, 1)).1

/-- C5: the horizontal blinker steps to the vertical blinker and back:
a period-2 oscillator. -/
theorem blinker_period_two :
    nextGeneration {((0 : ℤ), (0 : ℤ)), (1, 0), (2, 0)} =
      {((1 : ℤ), (-1 : ℤ)), (1, 0), (1, 1)} ∧
    nextGeneration (nextGeneration {((0 : ℤ), (0 : ℤ)), (1, 0), (2, 0)}) =
      {((0 : ℤ), (0 : ℤ)), (1, 0), (2, 0)} := by
  constructor
  · decide
  · decide

/-- C8: toggleCell flips exactly the membership of the toggled cell and is
self-inverse (the input world is untouched: worlds are immutable values in
this embedding, and toggleCell builds a new set). -/
theorem toggleCell_flips (w : Finset (ℤ × ℤ)) (x y : ℤ) :
    (∀ k, k ∈ toggleCell w x y ↔ if k = (x, y) then (x, y) ∉ w else k ∈ w)
    ∧ toggleCell (toggleCell w x y) x y = w := by
  by_cases h : (x, y) ∈ w
  · refine ⟨fun k => ?_, ?_⟩
    · by_cases hk : k = (x, y) <;>
        simp [toggleCell, h, hk, Finset.mem_erase]
    · simp [toggleCell, h, Finset.insert_erase h]
  · refine ⟨fun k => ?_, ?_⟩
    · by_cases hk : k = (x, y) <;>
        simp [toggleCell, h, hk, Finset.mem_insert]
    · simp [toggleCell, h, Finset.erase_insert h]

/-- C9: locality of the step: every cell of the next world is within Moore
distance 1 of a live input cell, every count-map value lies in 1..8, and the
empty world steps to the empty world. -/
theorem nextGeneration_local (w : Finset (ℤ × ℤ)) (k : ℤ × ℤ) :
    (k ∈ nextGeneration w →
        ∃ c ∈ w, (k.1 - c.1).natAbs ≤ 1 ∧ (k.2 - c.2).natAbs ≤ 1)
    ∧ (0 < neighborCounts w k →
        1 ≤ neighborCounts w k ∧ neighborCounts w k ≤ 8)
    ∧ nextGeneration (∅ : Finset (ℤ × ℤ)) = ∅ := by
  refine ⟨fun hk => ?_, fun h => ⟨h, neighborCounts_le_eight w k⟩, by decide⟩
  have hcnt : 0 < neighborCounts w k := by
    rcases mem_nextGeneration.mp hk with h | h
    · omega
    · omega
  obtain ⟨c, hc, hmem⟩ := neighborCounts_pos.mp hcnt
  have hm := mem_neighbors.mp hmem
  exact ⟨c, hc, hm.2.1, hm.2.2⟩

/-- C9 witness: locality statements evaluated on the blinker world. -/
theorem nextGeneration_local_witness :
    (∃ c ∈ ({((0 : ℤ), (0 : ℤ)), (1, 0), (2, 0)} : Finset (ℤ × ℤ)),
        ((1 : ℤ) - c.1).natAbs ≤ 1 ∧ ((1 : ℤ) - c.2).natAbs ≤ 1)
    ∧ (1 ≤ neighborCounts {((0 : ℤ), (0 : ℤ)), (1, 0), (2, 0)} (1, 1) ∧
        neighborCounts {((0 : ℤ), (0 : ℤ)), (1, 0), (2, 0)} (1, 1) ≤ 8) :=
  ⟨(nextGeneration_local {((0 : ℤ), (0 : ℤ)), (1, 0), (2, 0)} (1, 1)).1
      (by decide),
   (nextGeneration_local {((0 : ℤ), (0 : ℤ)), (1, 0), (2, 0)} (1, 1)).2.1
      (by decide)⟩

/-! ### Helper lemmas: 32-bit arithmetic -/

lemma toInt32_congr {a b : ℤ} (h : a % 4294967296 = b % 4294967296) :
    toInt32 a = toInt32 b := by
  unfold toInt32
  omega

lemma toInt32_eq_self {z : ℤ} (h1 : -2147483648 ≤ z) (h2 : z < 2147483648) :
    toInt32 z = z := by
  unfold toInt32
  omega

lemma toUint32_toInt32 (z : ℤ) : toUint32 (toInt32 z) = toUint32 z := by
  unfold toUint32 toInt32
  omega

lemma lor_sixteen (a b : ℕ) (hb : b < 65536) : 65536 * a ||| b = 65536 * a + b := by
  have hb' : b < 2 ^ 16 := by omega
  apply Nat.eq_of_testBit_eq
  intro i
  rw [Nat.testBit_or]
  rw [show (65536 : ℕ) = 2 ^ 16 by norm_num]
  rw [Nat.testBit_mul_pow_two_add a hb' i, Nat.testBit_mul_pow_two]
  by_cases h : i < 16
  · simp [h, Nat.not_le.mpr h]
  · have hbz : b.testBit i = false :=
      Nat.testBit_lt_two_pow (lt_of_lt_of_le hb' (Nat.pow_le_pow_right (by norm_num) (by omega)))
    simp [h, hbz, Nat.not_lt.mp h]

lemma jsAnd_65535 (z : ℤ) : jsAnd z 65535 = z % 65536 := by
  unfold jsAnd toUint32
  have h1 : ((65535 : ℤ) % 4294967296).toNat = 65535 := rfl
  rw [h1]
  have h2 : (z % 4294967296).toNat &&& 65535 = (z % 4294967296).toNat % 65536 := by
    have := Nat.and_pow_two_sub_one_eq_mod ((z % 4294967296).toNat) 16
    norm_num at this
    exact this
  rw [h2]
  unfold toInt32
  simp only [Int.ofNat_eq_natCast]
  omega

lemma jsShl16 (x : ℤ) : jsShl x 16 = toInt32 (65536 * x) := by
  unfold jsShl
  have h : (2 : ℤ) ^ (16 % 32) = 65536 := by norm_num
  rw [h]
  apply toInt32_congr
  unfold toInt32
  omega

lemma jsShr16 (k : ℤ) : jsShr k 16 = toInt32 k / 65536 := by
  unfold jsShr
  have h : (2 : ℤ) ^ (16 % 32) = 65536 := by norm_num
  rw [h]
  exact Int.fdiv_eq_ediv _ (by norm_num)

lemma packedKey_eq (x y : ℤ) :
    Packed.cellKey x y = toInt32 (65536 * x + y % 65536) := by
  rw [Packed.cellKey, jsAnd_65535, jsShl16]
  unfold jsOr
  rw [toUint32_toInt32]
  have h1 : toUint32 (65536 * x) = (65536 * (x % 65536)).toNat := by
    unfold toUint32
    omega
  have h2 : toUint32 (y % 65536) = (y % 65536).toNat := by
    unfold toUint32
    omega
  have h3 : (65536 * (x % 65536)).toNat = 65536 * (x % 65536).toNat := by
    omega
  rw [h1, h2, h3, lor_sixteen _ _ (by omega)]
  apply toInt32_congr
  simp only [Int.ofNat_eq_natCast]
  push_cast
  omega

lemma packedKey_eq_of_range {x : ℤ} (y : ℤ) (hx1 : -32768 ≤ x) (hx2 : x ≤ 32767) :
    Packed.cellKey x y = 65536 * x + y % 65536 := by
  rw [packedKey_eq]
  exact toInt32_eq_self (by omega) (by omega)

lemma unpackKey_eq {k : ℤ} (h1 : -2147483648 ≤ k) (h2 : k < 2147483648) :
    Packed.unpackKey k = (k / 65536, k % 65536) := by
  rw [Packed.unpackKey, jsShr16, jsAnd_65535, toInt32_eq_self h1 h2]

/-! ### Helper lemmas: the string codec -/

namespace StringKey

lemma digitChar_props {d : ℕ} (h : d < 10) :
    (digitChar d).isDigit = true ∧ (digitChar d).toNat - 48 = d ∧
      digitChar d ≠ Char.ofNat 44 ∧ digitChar d ≠ Char.ofNat 45 := by
  interval_cases d <;> exact ⟨by decide, by decide, by decide, by decide⟩

lemma natChars_mem {n : ℕ} {c : Char} (hc : c ∈ natChars n) :
    c.isDigit = true ∧ c ≠ Char.ofNat 44 ∧ c ≠ Char.ofNat 45 := by
  rw [natChars] at hc
  by_cases h : n = 0
  · rw [if_pos h] at hc
    simp at hc
    subst hc
    exact ⟨by decide, by decide, by decide⟩
  · rw [if_neg h] at hc
    obtain ⟨d, hd, rfl⟩ := List.mem_map.mp hc
    have hd10 : d < 10 :=
      Nat.digits_lt_base (by norm_num) (List.mem_reverse.mp hd)
    obtain ⟨h1, _, h3, h4⟩ := digitChar_props hd10
    exact ⟨h1, h3, h4⟩

lemma natChars_ne_nil (n : ℕ) : natChars n ≠ [] := by
  rw [natChars]
  by_cases h : n = 0
  · simp [h]
  · rw [if_neg h]
    simp [Nat.digits_ne_nil_iff_ne_zero.mpr h]

lemma foldr_eq_ofDigits (l : List ℕ) :
    l.foldr (fun d a => 10 * a + d) 0 = Nat.ofDigits 10 l := by
  induction l with
  | nil => simp [Nat.ofDigits_nil]
  | cons d l ih =>
    rw [List.foldr_cons, ih, Nat.ofDigits_cons]
    omega

lemma parseNatAux_digits (ds : List ℕ) (h : ∀ d ∈ ds, d < 10) (acc : ℕ) :
    parseNatAux acc (ds.map digitChar) =
      some (ds.foldl (fun a d => 10 * a + d) acc) := by
  induction ds generalizing acc with
  | nil => rfl
  | cons d ds ih =>
    have hd : d < 10 := h d (List.mem_cons_self d ds)
    obtain ⟨h1, h2, _, _⟩ := digitChar_props hd
    rw [List.map_cons, parseNatAux, if_pos h1, h2, List.foldl_cons]
    exact ih (fun e he => h e (List.mem_cons_of_mem d he)) _

lemma parseNatAux_natChars (n : ℕ) : parseNatAux 0 (natChars n) = some n := by
  rw [natChars]
  by_cases h : n = 0
  · rw [if_pos h, h]
    decide
  · rw [if_neg h]
    rw [parseNatAux_digits _
      (fun d hd => Nat.digits_lt_base (by norm_num) (List.mem_reverse.mp hd)) 0]
    rw [List.foldl_reverse]
    congr 1
    have : (fun a d => 10 * a + d) = fun a d => (fun x y => 10 * x + y) a d := rfl
    rw [show (fun x y => (fun a d => 10 * a + d) y x) = fun d a => 10 * a + d from rfl]
    rw [foldr_eq_ofDigits]
    exact Nat.ofDigits_digits 10 n

lemma splitOnComma_replicate (n : ℕ) :
    splitOnComma (List.replicate n (Char.ofNat 44)) =
      List.replicate (n + 1) [] := by
  induction n with
  | zero => rfl
  | succ n ih =>
    rw [List.replicate_succ, splitOnComma, if_pos rfl, ih,
      List.replicate_succ (n := n + 1)]

lemma jsNumber_natChars (n : ℕ) : jsNumber (natChars n) = some (n : ℤ) := by
  obtain ⟨c, cs, hcons⟩ : ∃ c cs, natChars n = c :: cs := by
    cases hn : natChars n with
    | nil => exact absurd hn (natChars_ne_nil n)
    | cons c cs => exact ⟨c, cs, rfl⟩
  have hc45 : c ≠ Char.ofNat 45 :=
    (natChars_mem (by rw [hcons]; exact List.mem_cons_self c cs)).2.2
  rw [hcons, jsNumber, if_neg hc45, ← hcons, parseNatAux_natChars]
  rfl

lemma jsNumber_intChars (x : ℤ) : jsNumber (intChars x) = some x := by
  rw [intChars]
  by_cases h : x < 0
  · rw [if_pos h, jsNumber, if_pos rfl,
      if_neg (natChars_ne_nil x.natAbs), parseNatAux_natChars]
    show some (-((x.natAbs : ℕ) : ℤ)) = some x
    exact congrArg some (by omega)
  · rw [if_neg h, jsNumber_natChars]
    have : ((x.toNat : ℕ) : ℤ) = x := by omega
    rw [this]

lemma intChars_no_comma {x : ℤ} {c : Char} (hc : c ∈ intChars x) :
    c ≠ Char.ofNat 44 := by
  rw [intChars] at hc
  by_cases h : x < 0
  · rw [if_pos h] at hc
    rcases List.mem_cons.mp hc with rfl | hc'
    · decide
    · exact (natChars_mem hc').2.1
  · rw [if_neg h] at hc
    exact (natChars_mem hc).2.1

lemma splitOnComma_no_comma {b : List Char} (hb : ∀ c ∈ b, c ≠ Char.ofNat 44) :
    splitOnComma b = [b] := by
  induction b with
  | nil => rfl
  | cons c cs ih =>
    rw [splitOnComma, if_neg (hb c (List.mem_cons_self c cs))]
    rw [ih fun e he => hb e (List.mem_cons_of_mem c he)]

lemma splitOnComma_append (a b : List Char) (ha : ∀ c ∈ a, c ≠ Char.ofNat 44) :
    splitOnComma (a ++ Char.ofNat 44 :: b) = a :: splitOnComma b := by
  induction a with
  | nil =>
    rw [List.nil_append, splitOnComma, if_pos rfl]
  | cons c cs ih =>
    rw [List.cons_append, splitOnComma, if_neg (ha c (List.mem_cons_self c cs))]
    rw [ih fun e he => ha e (List.mem_cons_of_mem c he)]

end StringKey

/-! ### Claim theorems: coordinate codecs and error behaviour -/

/-- C2 counterexample: the pair (0, -1) lies in the claimed representable
range, but the bit-packed decode is not the inverse of the encode there:
unpackKey does not sign-extend the low field, so y = -1 comes back as 65535. -/
theorem packed_roundtrip_fails :
    Packed.unpackKey (Packed.cellKey 0 (-1)) = (0, 65535)
    ∧ ((0 : ℤ), (65535 : ℤ)) ≠ ((0 : ℤ), (-1 : ℤ))
    ∧ (-32768 : ℤ) ≤ -1 ∧ (-1 : ℤ) ≤ 32767 :=
  ⟨by decide, by decide, by decide, by decide⟩

/-- C2 (amended): decode(encode(x, y)) = (x, y) holds for the string codec at
every integer pair, and for the bit-packed codec exactly on the asymmetric
range x in [-32768, 32767], y in [0, 65535] (the y field is masked but never
sign-extended on decode, so negative y decodes to y + 65536). -/
theorem codec_roundtrip (x y : ℤ) :
    StringKey.parseCell (StringKey.cellKey x y) = [some x, some y]
    ∧ (-32768 ≤ x → x ≤ 32767 → 0 ≤ y → y ≤ 65535 →
        Packed.unpackKey (Packed.cellKey x y) = (x, y)) := by
  constructor
  · rw [StringKey.parseCell, StringKey.cellKey]
    rw [StringKey.splitOnComma_append _ _
      (fun c hc => StringKey.intChars_no_comma hc)]
    rw [StringKey.splitOnComma_no_comma
      (fun c hc => StringKey.intChars_no_comma hc)]
    rw [List.map_cons, List.map_cons, List.map_nil]
    rw [StringKey.jsNumber_intChars, StringKey.jsNumber_intChars]
  · intro h1 h2 h3 h4
    rw [packedKey_eq_of_range y h1 h2]
    rw [unpackKey_eq (by omega) (by omega)]
    simp only [Prod.mk.injEq]
    exact ⟨by omega, by omega⟩

/-- C2 witness: round trips evaluated at (-12, 34). -/
theorem codec_roundtrip_witness :
    StringKey.parseCell (StringKey.cellKey (-12) 34) = [some (-12), some 34]
    ∧ Packed.unpackKey (Packed.cellKey (-12) 34) = (-12, 34) :=
  ⟨(codec_roundtrip (-12) 34).1,
   (codec_roundtrip (-12) 34).2 (by decide) (by decide) (by decide) (by decide)⟩

/-- C6 counterexample: the malformed key "," (two empty components) decodes
to (0, 0) with no error: JS Number("") is 0, so the decode IS silently
coerced to (0,0) and no ParseError exists anywhere in the codec. -/
theorem parseCell_comma_coerces :
    StringKey.parseCell [Char.ofNat 44] = [some 0, some 0] := by decide

/-- C6 (amended): decoding a malformed key never fails: parseCell is a total
function with no error channel (split and Number never throw).  Malformed
keys are silently coerced rather than rejected: the key made of n commas —
n + 1 empty components, a wrong number of parts whenever n ≠ 1 — decodes to
n + 1 zero components, because JS Number("") is 0.  In particular ","
decodes to (0, 0). -/
theorem parse_malformed_silent (n : ℕ) :
    StringKey.parseCell (List.replicate n (Char.ofNat 44)) =
      List.replicate (n + 1) (some 0) := by
  rw [StringKey.parseCell, StringKey.splitOnComma_replicate, List.map_replicate]
  rfl

/-- C10 counterexample: fromRandomGrid(0, 5, 0.5) throws (via the width check
of the constructor it calls) although its density is within [0, 1], so
"fromRandomGrid throws exactly when density < 0 or density > 1" fails. -/
theorem fromRandomGrid_throws_without_bad_density :
    (∃ e, Bun.fromRandomGrid 0 5 (1 / 2) (fun _ _ => 0) = Except.error e)
    ∧ ¬((1 / 2 : ℚ) < 0 ∨ 1 < (1 / 2 : ℚ)) := by
  constructor
  · refine ⟨"Width and height must be positive", ?_⟩
    rw [Bun.fromRandomGrid, if_neg (by norm_num)]
    rw [Bun.mkGameOfLife, if_pos (by norm_num)]
  · norm_num

/-- C10 (amended): the constructor throws exactly when width ≤ 0 or
height ≤ 0; fromRandomGrid throws exactly when density < 0 or density > 1 or
width ≤ 0 or height ≤ 0 (its density check runs first, then it calls the
constructor); getCell returns undefined for every out-of-bounds coordinate. -/
theorem bun_validation (width height : ℤ) (density : ℚ) (rand : ℤ → ℤ → ℚ)
    (g : Bun.GameOfLife) (x y : ℤ) :
    ((∃ e, Bun.mkGameOfLife width height = Except.error e) ↔
        width ≤ 0 ∨ height ≤ 0)
    ∧ ((∃ e, Bun.fromRandomGrid width height density rand = Except.error e) ↔
        (density < 0 ∨ 1 < density ∨ width ≤ 0 ∨ height ≤ 0))
    ∧ ((x < 0 ∨ g.width ≤ x ∨ y < 0 ∨ g.height ≤ y) →
        Bun.getCell g x y = none) := by
  refine ⟨?_, ?_, fun h => by rw [Bun.getCell, if_pos h]⟩
  · rw [Bun.mkGameOfLife]
    by_cases h : width ≤ 0 ∨ height ≤ 0
    · simp [h]
    · simp [h]
  · rw [Bun.fromRandomGrid]
    by_cases hd : density < 0 ∨ 1 < density
    · rw [if_pos hd]
      constructor
      · intro _
        tauto
      · intro _
        exact ⟨_, rfl⟩
    · rw [if_neg hd, Bun.mkGameOfLife]
      push_neg at hd
      by_cases hw : width ≤ 0 ∨ height ≤ 0
      · rw [if_pos hw]
        constructor
        · intro _
          tauto
        · intro _
          exact ⟨_, rfl⟩
      · rw [if_neg hw]
        constructor
        · rintro ⟨e, he⟩
          exact Except.noConfusion he
        · rintro (h | h | h | h)
          · exact absurd h (not_lt.mpr hd.1)
          · exact absurd h (not_lt.mpr hd.2)
          · exact absurd (Or.inl h) hw
          · exact absurd (Or.inr h) hw

/-- C10 witness: validation outcomes at concrete inputs. -/
theorem bun_validation_witness :
    ((∃ e, Bun.mkGameOfLife 0 3 = Except.error e) ↔ (0 : ℤ) ≤ 0 ∨ (3 : ℤ) ≤ 0)
    ∧ Bun.getCell ⟨3, 3, fun _ => none⟩ (-1) 0 = none :=
  ⟨(bun_validation 0 3 (1 / 2) (fun _ _ => 0) ⟨3, 3, fun _ => none⟩ (-1) 0).1,
   (bun_validation 0 3 (1 / 2) (fun _ _ => 0) ⟨3, 3, fun _ => none⟩ (-1) 0).2.2
     (Or.inl (by norm_num))⟩

/-! ### Claim theorems: chunk sparsity -/

/-- C7: toChunks never yields a chunk entry with an empty cell list, and a
persistence update whose cell list is empty results in no stored chunk (the
existing chunk is deleted, an empty one is never stored). -/
theorem chunk_sparsity (w : Finset (ℤ × ℤ)) (C : ℤ) (e : (ℤ × ℤ) × Finset ℤ)
    (existing : Option (List ℤ)) (cells : List ℤ) :
    (e ∈ Chunks.toChunks w C → e.2.Nonempty)
    ∧ Chunks.applyChunkUpdate existing cells ≠ some [] := by
  constructor
  · intro he
    rw [Chunks.toChunks] at he
    obtain ⟨cc, hcc, rfl⟩ := Finset.mem_image.mp he
    obtain ⟨p, hp, hpcc⟩ := Finset.mem_image.mp hcc
    refine ⟨Chunks.packCell C p, ?_⟩
    show Chunks.packCell C p ∈ Chunks.chunkCells w C cc
    rw [Chunks.chunkCells]
    exact Finset.mem_image_of_mem _ (Finset.mem_filter.mpr ⟨hp, hpcc⟩)
  · rw [Chunks.applyChunkUpdate]
    by_cases hc : cells = []
    · simp [hc]
    · simp [hc]

/-- C7 witness: the one-cell world in chunk (0,0) yields the non-empty chunk
record ((0,0), {0}), and the empty update stores nothing. -/
theorem chunk_sparsity_witness :
    ((((0 : ℤ), (0 : ℤ)), ({0} : Finset ℤ)).2.Nonempty)
    ∧ Chunks.applyChunkUpdate none [] ≠ some [] :=
  ⟨(chunk_sparsity {((0 : ℤ), (0 : ℤ))} 64 (((0 : ℤ), (0 : ℤ)), ({0} : Finset ℤ))
      none []).1 (by decide),
   (chunk_sparsity {((0 : ℤ), (0 : ℤ))} 64 (((0 : ℤ), (0 : ℤ)), ({0} : Finset ℤ))
      none []).2⟩

/-! ### Helper lemmas: chunk codec arithmetic -/

lemma neg_tmod (a b : ℤ) : Int.tmod (-a) b = -Int.tmod a b := by
  rw [Int.tmod_def, Int.tmod_def, Int.neg_tdiv]
  ring

lemma tmod_bounds (a : ℤ) {b : ℤ} (hb : 0 < b) :
    -b < Int.tmod a b ∧ Int.tmod a b < b := by
  refine ⟨?_, Int.tmod_lt_of_pos _ hb⟩
  by_cases ha : 0 ≤ a
  · have := Int.tmod_nonneg b ha
    omega
  · have h1 : Int.tmod (-a) b < b := Int.tmod_lt_of_pos _ hb
    rw [neg_tmod] at h1
    omega

lemma tmod_dvd (a b : ℤ) : b ∣ (a - Int.tmod a b) := by
  rw [Int.tmod_def]
  exact ⟨a.tdiv b, by ring⟩

lemma eq_zero_of_dvd_of_bounds {C d : ℤ} (hC : 0 < C) (hdvd : C ∣ d)
    (h1 : -C < d) (h2 : d < C) : d = 0 := by
  obtain ⟨k, rfl⟩ := hdvd
  have hk1 : k < 1 := by
    by_contra h
    push_neg at h
    nlinarith
  have hk2 : -1 < k := by
    by_contra h
    push_neg at h
    nlinarith
  have hk : k = 0 := by omega
  rw [hk, mul_zero]

lemma localCoord_eq_emod {C : ℤ} (hC : 1  ≤ C) (x : ℤ) :
    Chunks.localCoord C x = x % C := by
  rw [Chunks.localCoord, jsRem, jsRem]
  have hC0 : (0 : ℤ) < C := by omega
  have hb1 := tmod_bounds x hC0
  have hs0 : 0 ≤ Int.tmod (Int.tmod x C + C) C := Int.tmod_nonneg C (by omega)
  have hs1 : Int.tmod (Int.tmod x C + C) C < C := Int.tmod_lt_of_pos _ hC0
  have he0 : 0 ≤ x % C := Int.emod_nonneg x (by omega)
  have he1 : x % C < C := Int.emod_lt_of_pos x hC0
  have d1 := tmod_dvd (Int.tmod x C + C) C
  have d2 := tmod_dvd x C
  have d3 : C ∣ (x - x % C) := by
    refine ⟨x / C, ?_⟩
    have := Int.ediv_add_emod x C
    linarith
  have hdvd : C ∣ (Int.tmod (Int.tmod x C + C) C - x % C) := by
    have heq : Int.tmod (Int.tmod x C + C) C - x % C =
        (x - x % C) - (x - Int.tmod x C) -
          ((Int.tmod x C + C) - Int.tmod (Int.tmod x C + C) C) + C := by
      ring
    rw [heq]
    exact dvd_add (dvd_sub (dvd_sub d3 d2) d1) dvd_rfl
  have := eq_zero_of_dvd_of_bounds hC0 hdvd (by omega) (by omega)
  omega

lemma packLocal_eq {lx ly : ℤ} (h1 : 0 ≤ lx) (h2 : lx < 32768)
    (h3 : 0 ≤ ly) (h4 : ly < 32768) :
    Chunks.packLocal lx ly = 65536 * lx + ly := by
  have h : Chunks.packLocal lx ly = Packed.cellKey (jsAnd lx 65535) ly := rfl
  rw [h, jsAnd_65535, packedKey_eq, toInt32_eq_self (by omega) (by omega)]
  omega

lemma unpackLocal_eq {lx ly : ℤ} (h1 : 0 ≤ lx) (h2 : lx < 32768)
    (h3 : 0 ≤ ly) (h4 : ly < 32768) :
    Chunks.unpackLocal (65536 * lx + ly) = (lx, ly) := by
  rw [Chunks.unpackLocal, jsShr16, toInt32_eq_self (by omega) (by omega)]
  simp only [jsAnd_65535]
  have hdiv : (65536 * lx + ly) / 65536 = lx := by omega
  have hm1 : lx % 65536 = lx := by omega
  have hm2 : (65536 * lx + ly) % 65536 = ly := by omega
  rw [hdiv, hm1, hm2, if_neg (by omega), if_neg (by omega)]

lemma unpack_packCell {C : ℤ} (hC : 1 ≤ C) (p : ℤ × ℤ)
    (hfx : p.1 % C < 32768) (hfy : p.2 % C < 32768) :
    ((Chunks.cellChunk C p).1 * C + (Chunks.unpackLocal (Chunks.packCell C p)).1,
     (Chunks.cellChunk C p).2 * C +
       (Chunks.unpackLocal (Chunks.packCell C p)).2) = p := by
  have hC0 : (0 : ℤ) < C := by omega
  have hex0 : 0 ≤ p.1 % C := Int.emod_nonneg _ (by omega)
  have hey0 : 0 ≤ p.2 % C := Int.emod_nonneg _ (by omega)
  have hpack : Chunks.packCell C p = 65536 * (p.1 % C) + (p.2 % C) := by
    rw [Chunks.packCell, localCoord_eq_emod hC, localCoord_eq_emod hC]
    exact packLocal_eq hex0 hfx hey0 hfy
  rw [hpack, unpackLocal_eq hex0 hfx hey0 hfy]
  rw [Chunks.cellChunk, jsFloorDiv, jsFloorDiv,
    Int.fdiv_eq_ediv _ (by omega), Int.fdiv_eq_ediv _ (by omega)]
  have h1 := Int.ediv_add_emod p.1 C
  have h2 := Int.ediv_add_emod p.2 C
  have e1 : p.1 / C * C + p.1 % C = p.1 := by linarith
  have e2 : p.2 / C * C + p.2 % C = p.2 := by linarith
  exact Prod.ext e1 e2

/-- C3: reconstructing a world from its chunk decomposition is the identity,
for every chunkSize C ≥ 1 and every world whose (non-negative) local residues
fit the signed 16-bit packing range of the stored codes. -/
theorem chunk_roundtrip (w : Finset (ℤ × ℤ)) (C : ℤ) (hC : 1 ≤ C)
    (hfit : ∀ p ∈ w, p.1 % C < 32768 ∧ p.2 % C < 32768) :
    Chunks.fromChunks (Chunks.toChunks w C) C = w := by
  ext q
  rw [Chunks.fromChunks, Finset.mem_sup]
  constructor
  · rintro ⟨e, he, hq⟩
    rw [Chunks.toChunks] at he
    obtain ⟨cc, hcc, rfl⟩ := Finset.mem_image.mp he
    rw [Finset.mem_image] at hq
    obtain ⟨code, hcode, rfl⟩ := hq
    rw [Chunks.chunkCells, Finset.mem_image] at hcode
    obtain ⟨p, hp, rfl⟩ := hcode
    rw [Finset.mem_filter] at hp
    obtain ⟨hpw, hpcc⟩ := hp
    have h := unpack_packCell hC p (hfit p hpw).1 (hfit p hpw).2
    rw [hpcc] at h
    exact h.symm ▸ hpw
  · intro hq
    refine ⟨(Chunks.cellChunk C q, Chunks.chunkCells w C (Chunks.cellChunk C q)),
      ?_, ?_⟩
    · rw [Chunks.toChunks]
      exact Finset.mem_image_of_mem _ (Finset.mem_image_of_mem _ hq)
    · rw [Finset.mem_image]
      refine ⟨Chunks.packCell C q, ?_, ?_⟩
      · rw [Chunks.chunkCells]
        exact Finset.mem_image_of_mem _ (Finset.mem_filter.mpr ⟨hq, rfl⟩)
      · exact unpack_packCell hC q (hfit q hq).1 (hfit q hq).2

/-- C3 witness: round trip of a two-cell world spanning two chunks at
chunk size 64. -/
theorem chunk_roundtrip_witness :
    Chunks.fromChunks
        (Chunks.toChunks {((100 : ℤ), (-3 : ℤ)), (5, 7)} 64) 64 =
      {((100 : ℤ), (-3 : ℤ)), (5, 7)} :=
  chunk_roundtrip {((100 : ℤ), (-3 : ℤ)), (5, 7)} 64 (by decide)
    (by decide)

/-! ### Helper lemmas: the packed stepper refines the string stepper

On the signed 16-bit window the packed key is the linear form
65536 * x + (y % 65536), which is injective there; a world whose cells lie
strictly inside the window (so that every Moore neighbour is still inside)
steps identically under both key encodings. -/

/-- The signed 16-bit window of representable packed coordinates. -/
def InWindow (p : ℤ × ℤ) : Prop :=
  -32768 ≤ p.1 ∧ p.1 ≤ 32767 ∧ -32768 ≤ p.2 ∧ p.2 ≤ 32767

/-- Strictly inside the window: all Moore neighbours stay in the window. -/
def InInnerWindow (p : ℤ × ℤ) : Prop :=
  -32767 ≤ p.1 ∧ p.1 ≤ 32766 ∧ -32767 ≤ p.2 ∧ p.2 ≤ 32766

lemma packedKey_congr {x y z : ℤ} (h : y % 65536 = z % 65536) :
    Packed.cellKey x y = Packed.cellKey x z := by
  rw [packedKey_eq, packedKey_eq, h]

lemma packedKey_inj {p q : ℤ × ℤ} (hp : InWindow p) (hq : InWindow q)
    (h : Packed.cellKey p.1 p.2 = Packed.cellKey q.1 q.2) : p = q := by
  obtain ⟨hp1, hp2, hp3, hp4⟩ := hp
  obtain ⟨hq1, hq2, hq3, hq4⟩ := hq
  rw [packedKey_eq_of_range p.2 hp1 hp2, packedKey_eq_of_range q.2 hq1 hq2] at h
  exact Prod.ext (by omega) (by omega)

lemma unpackKey_packedKey {p : ℤ × ℤ} (hp : InWindow p) :
    Packed.unpackKey (Packed.cellKey p.1 p.2) = (p.1, p.2 % 65536) := by
  obtain ⟨hp1, hp2, hp3, hp4⟩ := hp
  rw [packedKey_eq_of_range p.2 hp1 hp2, unpackKey_eq (by omega) (by omega)]
  simp only [Prod.mk.injEq]
  exact ⟨by omega, by omega⟩

lemma window_of_mem_neighbors {p k : ℤ × ℤ} (hp : InInnerWindow p)
    (hk : k ∈ neighbors p) : InWindow k := by
  obtain ⟨h1, h2, h3, h4⟩ := hp
  have := mem_neighbors.mp hk
  rw [InWindow]
  omega

lemma packedNeighbors_packedKey {p : ℤ × ℤ} (hp : InInnerWindow p) :
    Packed.packedNeighbors (Packed.cellKey p.1 p.2) =
      (neighbors p).map fun q => Packed.cellKey q.1 q.2 := by
  have hwin : InWindow p := by
    obtain ⟨h1, h2, h3, h4⟩ := hp
    rw [InWindow]
    omega
  rw [Packed.packedNeighbors, unpackKey_packedKey hwin]
  simp only [neighbors, List.map_cons, List.map_nil, List.cons.injEq, and_true]
  refine ⟨?_, ?_, ?_, ?_, ?_, ?_, ?_, ?_⟩ <;> exact packedKey_congr (by omega)

set_option maxRecDepth 4000 in
lemma count_map_packedKey {l : List (ℤ × ℤ)} {k : ℤ × ℤ}
    (hl : ∀ a ∈ l, InWindow a) (hk : InWindow k) :
    (l.map fun q => Packed.cellKey q.1 q.2).count (Packed.cellKey k.1 k.2) =
      l.count k := by
  induction l with
  | nil => simp
  | cons a l ih =>
    rw [List.map_cons, List.count_cons, List.count_cons,
      ih fun b hb => hl b (List.mem_cons_of_mem a hb)]
    by_cases hka : k = a
    · subst hka
      simp
    · have hne : Packed.cellKey k.1 k.2 ≠ Packed.cellKey a.1 a.2 := fun hc =>
        hka (packedKey_inj hk (hl a (List.mem_cons_self a l)) hc)
      simp [hka, hne, Ne.symm hka, Ne.symm hne]

lemma window_of_countedKeys {w : Finset (ℤ × ℤ)}
    (hr : ∀ p ∈ w, InInnerWindow p) {k : ℤ × ℤ} (hk : k ∈ countedKeys w) :
    InWindow k := by
  rw [countedKeys, Finset.mem_biUnion] at hk
  obtain ⟨c, hc, hkc⟩ := hk
  exact window_of_mem_neighbors (hr c hc) (List.mem_toFinset.mp hkc)

lemma window_of_inner {p : ℤ × ℤ} (hp : InInnerWindow p) : InWindow p := by
  obtain ⟨h1, h2, h3, h4⟩ := hp
  rw [InWindow]
  omega

lemma countedKeys_image {w : Finset (ℤ × ℤ)}
    (hr : ∀ p ∈ w, InInnerWindow p) :
    Packed.countedKeys (w.image fun p => Packed.cellKey p.1 p.2) =
      (countedKeys w).image fun p => Packed.cellKey p.1 p.2 := by
  rw [Packed.countedKeys, countedKeys, Finset.image_biUnion, Finset.biUnion_image]
  apply Finset.biUnion_congr rfl
  intro c hc
  rw [packedNeighbors_packedKey (hr c hc)]
  ext z
  simp [List.mem_toFinset, Finset.mem_image, List.mem_map]

lemma packed_counts_eq {w : Finset (ℤ × ℤ)} (hr : ∀ p ∈ w, InInnerWindow p)
    {k : ℤ × ℤ} (hk : InWindow k) :
    Packed.neighborCounts (w.image fun p => Packed.cellKey p.1 p.2)
        (Packed.cellKey k.1 k.2) = neighborCounts w k := by
  rw [Packed.neighborCounts, neighborCounts,
    Finset.sum_image fun a ha b hb hab =>
      packedKey_inj (window_of_inner (hr a ha)) (window_of_inner (hr b hb)) hab]
  apply Finset.sum_congr rfl
  intro c hc
  rw [packedNeighbors_packedKey (hr c hc)]
  exact count_map_packedKey
    (fun a ha => window_of_mem_neighbors (hr c hc) ha) hk

lemma packed_mem_iff {w : Finset (ℤ × ℤ)} (hr : ∀ p ∈ w, InInnerWindow p)
    {k : ℤ × ℤ} (hk : InWindow k) :
    (Packed.cellKey k.1 k.2 ∈ w.image fun p => Packed.cellKey p.1 p.2) ↔
      k ∈ w := by
  rw [Finset.mem_image]
  constructor
  · rintro ⟨c, hc, hck⟩
    rwa [packedKey_inj (window_of_inner (hr c hc)) hk hck] at hc
  · exact fun h => ⟨k, h, rfl⟩

/-! ### Claim theorem: encoding refinement -/

/-- C4: on worlds strictly inside the signed 16-bit window (so the step stays
inside it), mapping each live pair to its packed key commutes with stepping:
the packed-key nextGeneration of the packed world is the packed image of the
string-keyed nextGeneration. -/
theorem packed_refines_string (w : Finset (ℤ × ℤ))
    (hr : ∀ p ∈ w, -32767 ≤ p.1 ∧ p.1 ≤ 32766 ∧ -32767 ≤ p.2 ∧ p.2 ≤ 32766) :
    Packed.nextGeneration (w.image fun p => Packed.cellKey p.1 p.2) =
      (nextGeneration w).image fun p => Packed.cellKey p.1 p.2 := by
  have hr' : ∀ p ∈ w, InInnerWindow p := hr
  ext k'
  rw [Packed.nextGeneration, Finset.mem_filter, countedKeys_image hr']
  constructor
  · rintro ⟨hk', hrule⟩
    obtain ⟨k, hk, rfl⟩ := Finset.mem_image.mp hk'
    have hkwin : InWindow k := window_of_countedKeys hr' hk
    rw [packed_counts_eq hr' hkwin, packed_mem_iff hr' hkwin] at hrule
    exact Finset.mem_image_of_mem _
      (Finset.mem_filter.mpr ⟨hk, hrule⟩)
  · intro hk'
    obtain ⟨k, hk, rfl⟩ := Finset.mem_image.mp hk'
    rw [nextGeneration, Finset.mem_filter] at hk
    obtain ⟨hkc, hrule⟩ := hk
    have hkwin : InWindow k := window_of_countedKeys hr' hkc
    refine ⟨Finset.mem_image_of_mem _ hkc, ?_⟩
    rw [packed_counts_eq hr' hkwin, packed_mem_iff hr' hkwin]
    exact hrule

/-- C4 witness: the two steppers agree on the blinker world. -/
theorem packed_refines_string_witness :
    Packed.nextGeneration
        (({((0 : ℤ), (0 : ℤ)), (1, 0), (2, 0)} : Finset (ℤ × ℤ)).image
          fun p => Packed.cellKey p.1 p.2) =
      (nextGeneration {((0 : ℤ), (0 : ℤ)), (1, 0), (2, 0)}).image
        fun p => Packed.cellKey p.1 p.2 :=
  packed_refines_string {((0 : ℤ), (0 : ℤ)), (1, 0), (2, 0)} (by decide)
